import Mathlib

/-!
Verification of the `tororo` static-file HTTP server (`src/main.rs`).

The server has two parts:
* `Service::resolve`: turns the request URI path into a filesystem path under
  the configured `document_root`, by folding over the path's components
  (as produced by `std::path::Path::components` on Unix) with an initially
  empty accumulator: `..` pops, `.` and the root anchor are skipped, and
  literal names are pushed; the result is `document_root.join(normalized)`.
* `Service::call` (the `hyper::service::Service` impl): a first-match-wins
  chain producing the response: non-GET method gives 405, a directory gives
  403, a file that opens gives 200 with the file's bytes, and any open
  failure gives 404.

We embed paths as lists of characters (`List Char`), path values as lists of
segments (`List (List Char)`, the components of the path), and the
filesystem as an abstract oracle `FS` supplying the two operations the
handler performs (`is_dir` and `File::open`).
-/

namespace Tororo

/-- A path component, modelling `std::path::Component` on Unix (no `Prefix`
components exist there).  `normal` carries the literal segment. -/
inductive Component where
  | rootDir : Component
  | curDir : Component
  | parentDir : Component
  | normal : List Char → Component
deriving DecidableEq

/-- Split a character list on `'/'`, keeping empty segments, exactly like
`String::split('/')`: `splitSlash "a//b" = ["a", "", "b"]` and
`splitSlash "" = [""]`. -/
def splitSlash : List Char → List (List Char)
  | [] => [[]]
  | c :: cs =>
    if c = '/' then [] :: splitSlash cs
    else
      match splitSlash cs with
      | [] => [[c]]
      | s :: ss => (c :: s) :: ss

/-- Classify a raw segment the way `Path::components` does for non-leading
segments: empty segments and `"."` are dropped, `".."` is `ParentDir`, and
anything else is a `Normal` component. -/
def classify (s : List Char) : Option Component :=
  if s = [] then none
  else if s = ['.'] then none
  else if s = ['.', '.'] then some Component.parentDir
  else some (Component.normal s)

/-- The component sequence of a path, modelling `Path::components()` on
Unix: a path starting with `'/'` yields `RootDir` followed by the classified
segments; a relative path keeps a leading `"."` segment as `CurDir` (Rust's
`include_cur_dir` rule) and classifies the rest, dropping empty and interior
`"."` segments. -/
def components (p : List Char) : List Component :=
  if p.head? = some '/' then
    Component.rootDir :: (splitSlash p).filterMap classify
  else
    match splitSlash p with
    | [] => []
    | first :: rest =>
      (if first = [] then []
       else if first = ['.'] then [Component.curDir]
       else if first = ['.', '.'] then [Component.parentDir]
       else [Component.normal first]) ++ rest.filterMap classify

/-- One iteration of the `for component in uri.components()` loop of
`Service::resolve`: `CurDir` does nothing, `ParentDir` is `normalized.pop()`
(a no-op on an empty path), `Normal` is `normalized.push(component)`, and
the wildcard arm (`RootDir`) does nothing. -/
def step (acc : List (List Char)) : Component → List (List Char)
  | Component.curDir => acc
  | Component.parentDir => acc.dropLast
  | Component.normal s => acc ++ [s]
  | Component.rootDir => acc

/-- The `normalized` accumulator at the end of the loop in
`Service::resolve`, as its list of segments. -/
def normalize (p : List Char) : List (List Char) :=
  (components p).foldl step []

/-- `Service::resolve`: the document root (given by its list of segments)
joined with the normalized request path.  `normalized` is always a relative
path of literal names, so `PathBuf::join` is concatenation of the segment
lists. -/
def resolve (document_root : List (List Char)) (p : List Char) :
    List (List Char) :=
  document_root ++ normalize p

/-- An HTTP response as observable from this component: a status code and
the body's bytes (`[]` models `Body::empty()`; for a 200 the body carries
the bytes streamed from the opened file). -/
structure Response where
  status : Nat
  body : List Nat
deriving DecidableEq

/-- The filesystem as the handler observes it: `is_dir` is
`Path::is_dir()`, and `openFile` is `File::open` — `some content` models a
successful open of a file holding those bytes, `none` models any open
failure (missing file, permission denied, or any other I/O error). -/
structure FS where
  isDir : List (List Char) → Bool
  openFile : List (List Char) → Option (List Nat)

/-- `Service::call`: resolve the path, then the first-match-wins chain of
the async block — non-GET gives 405 with empty body, a directory gives 403
with empty body, a successful open gives 200 with the file's bytes
(`Body::wrap_stream(FramedRead::new(file, BytesCodec::new()))` delivers
exactly the file's byte content), and an open failure gives 404 with empty
body. -/
def call (fs : FS) (document_root : List (List Char)) (method : String)
    (uriPath : List Char) : Response :=
  let path := resolve document_root uriPath
  if method ≠ "GET" then
    ⟨405, []⟩
  else if fs.isDir path then
    ⟨403, []⟩
  else
    match fs.openFile path with
    | some content => ⟨200, content⟩
    | none => ⟨404, []⟩

/-- A second resolver step following the words of §4.1 of the spec: a `..`
segment removes the last accumulated segment if one exists and is silently
discarded when the accumulator is empty; a `.` segment or any other
non-literal segment (empty, root anchor) is discarded; a literal name
segment is appended.  Claim C2 compares this with `step`. -/
def specStep (acc : List (List Char)) : Component → List (List Char)
  | Component.parentDir => if acc = [] then acc else acc.dropLast
  | Component.normal s => acc ++ [s]
  | _ => acc

/-- A concrete filesystem where every path is a directory and every open
succeeds; used to witness that the method and directory checks take
precedence. -/
def fsDirEverywhere : FS := ⟨fun _ => true, fun _ => some [104, 105]⟩

/-- A concrete filesystem with no directories where every open fails. -/
def fsEmpty : FS := ⟨fun _ => false, fun _ => none⟩

/-- A concrete filesystem with no directories where every open yields the
bytes `[1, 2, 3]`. -/
def fsFile123 : FS := ⟨fun _ => false, fun _ => some [1, 2, 3]⟩

/-- A concrete filesystem that serves `[7]` at the path `r/x` and fails to
open anything else. -/
def fsOnlyRX : FS :=
  ⟨fun _ => false, fun q => if q = [['r'], ['x']] then some [7] else none⟩

/-- A concrete filesystem that serves `[7]` at the path `r/x` and `[9]`
everywhere else: it agrees with `fsOnlyRX` at `r/x` and nowhere else. -/
def fsRXandNines : FS :=
  ⟨fun _ => false, fun q => if q = [['r'], ['x']] then some [7] else some [9]⟩

example : normalize ['/', '.', '.'] = [] := by decide

example :
    normalize ['/', '.', '.', '/', '.', '.', '/', 'e', 't', 'c'] =
      [['e', 't', 'c']] := by decide

example : normalize ['a', '/', '.', '/', 'b'] = [['a'], ['b']] := by decide

example : normalize ['a', '/', '.', '.', '/', 'b'] = [['b']] := by decide

theorem splitSlash_ne_nil (p : List Char) : splitSlash p ≠ [] := by
  cases p with
  | nil => simp [splitSlash]
  | cons c cs =>
    simp only [splitSlash]
    split
    · simp
    · split <;> simp

theorem not_slash_of_mem_splitSlash (p : List Char) :
    ∀ s ∈ splitSlash p, '/' ∉ s := by
  induction p with
  | nil =>
    intro s hs
    have hnil : s = [] := by simpa [splitSlash] using hs
    simp [hnil]
  | cons c cs ih =>
    intro s hs
    by_cases hc : c = '/'
    · subst hc
      simp only [splitSlash, if_true, List.mem_cons] at hs
      rcases hs with hs | hs
      · simp [hs]
      · exact ih s hs
    · cases h : splitSlash cs with
      | nil => exact absurd h (splitSlash_ne_nil cs)
      | cons t ts =>
        simp only [splitSlash, if_neg hc, h, List.mem_cons] at hs
        rcases hs with hs | hs
        · subst hs
          intro hmem
          rcases List.mem_cons.mp hmem with h1 | h1
          · exact hc h1.symm
          · exact ih t (h ▸ List.mem_cons_self t ts) h1
        · exact ih s (h ▸ List.mem_cons_of_mem t hs)

theorem classify_eq_normal {s t : List Char}
    (h : classify s = some (Component.normal t)) :
    t = s ∧ s ≠ [] ∧ s ≠ ['.'] ∧ s ≠ ['.', '.'] := by
  unfold classify at h
  split_ifs at h with h1 h2 h3
  · exact absurd h (by simp)
  · have hst : s = t := Component.normal.inj (Option.some.inj h)
    subst hst
    exact ⟨rfl, h1, h2, h3⟩

theorem good_of_normal_mem_components {p s : List Char}
    (h : Component.normal s ∈ components p) :
    s ≠ [] ∧ s ≠ ['.'] ∧ s ≠ ['.', '.'] ∧ '/' ∉ s := by
  unfold components at h
  split at h
  · rcases List.mem_cons.mp h with h' | h'
    · exact absurd h' (by simp)
    · obtain ⟨a, ha, hc⟩ := List.mem_filterMap.mp h'
      obtain ⟨heq, h1, h2, h3⟩ := classify_eq_normal hc
      subst heq
      exact ⟨h1, h2, h3, not_slash_of_mem_splitSlash p s ha⟩
  · split at h
    · exact absurd h (List.not_mem_nil _)
    · rename_i first rest hsplit
      rcases List.mem_append.mp h with h' | h'
      · split_ifs at h' with h1 h2 h3
        · exact absurd h' (List.not_mem_nil _)
        · rw [List.mem_singleton] at h'
          exact absurd h' (by simp)
        · rw [List.mem_singleton] at h'
          exact absurd h' (by simp)
        · rw [List.mem_singleton] at h'
          have heq : s = first := Component.normal.inj h'
          subst heq
          exact ⟨h1, h2, h3,
            not_slash_of_mem_splitSlash p s
              (hsplit ▸ List.mem_cons_self s rest)⟩
      · obtain ⟨a, ha, hc⟩ := List.mem_filterMap.mp h'
        obtain ⟨heq, h1, h2, h3⟩ := classify_eq_normal hc
        subst heq
        exact ⟨h1, h2, h3,
          not_slash_of_mem_splitSlash p s
            (hsplit ▸ List.mem_cons_of_mem first ha)⟩

theorem mem_foldl_step (P : List Char → Prop) :
    ∀ (cs : List Component) (acc : List (List Char)),
      (∀ s ∈ acc, P s) → (∀ s, Component.normal s ∈ cs → P s) →
      ∀ s ∈ List.foldl step acc cs, P s := by
  intro cs
  induction cs with
  | nil =>
    intro acc hacc _ s hs
    exact hacc s hs
  | cons c cs ih =>
    intro acc hacc hcs s hs
    rw [List.foldl_cons] at hs
    refine ih (step acc c) ?_ ?_ s hs
    · intro t ht
      cases c with
      | curDir => exact hacc t ht
      | rootDir => exact hacc t ht
      | parentDir => exact hacc t (List.dropLast_subset acc ht)
      | normal u =>
        rcases List.mem_append.mp ht with h' | h'
        · exact hacc t h'
        · have heq : t = u := by simpa using h'
          subst heq
          exact hcs t (by simp)
    · intro t ht
      exact hcs t (List.mem_cons_of_mem _ ht)

theorem normalize_good (p : List Char) :
    ∀ s ∈ normalize p, s ≠ [] ∧ s ≠ ['.'] ∧ s ≠ ['.', '.'] ∧ '/' ∉ s := by
  refine mem_foldl_step _ (components p) [] (by simp) ?_
  intro s hs
  exact good_of_normal_mem_components hs

/-- Claim C1: for every request URI path string (containing any number of
`..` segments, absolute prefixes, or other components) and every document
root, the resolved path is lexically contained within the document root: the
document root's segments are a prefix of the result (equality when the
normalized part is empty), and every appended segment is a literal name —
never `..`, `.`, or empty — so the result never refers above the root. -/
theorem resolve_within_document_root (document_root : List (List Char))
    (p : List Char) :
    document_root <+: resolve document_root p ∧
      ∀ s ∈ normalize p, s ≠ ['.', '.'] ∧ s ≠ ['.'] ∧ s ≠ [] := by
  constructor
  · exact ⟨normalize p, rfl⟩
  · intro s hs
    obtain ⟨h1, h2, h3, _⟩ := normalize_good p s hs
    exact ⟨h3, h2, h1⟩

theorem step_eq_specStep (acc : List (List Char)) (c : Component) :
    step acc c = specStep acc c := by
  cases c with
  | parentDir =>
    cases acc <;> simp [step, specStep]
  | curDir => rfl
  | rootDir => rfl
  | normal s => rfl

theorem foldl_step_eq_foldl_specStep (cs : List Component) :
    ∀ acc, List.foldl step acc cs = List.foldl specStep acc cs := by
  induction cs with
  | nil => intro acc; rfl
  | cons c cs ih =>
    intro acc
    rw [List.foldl_cons, List.foldl_cons, step_eq_specStep]
    exact ih _

/-- Claim C2: the resolver processes the URI path's components in order over
an initially empty accumulator, exactly as the spec's algorithm words it
(`specStep`): `..` pops the last accumulated segment when one exists and is
discarded otherwise, `.` and non-literal components are discarded, literal
names are appended, and the result is the document root joined with the
accumulator. -/
theorem resolve_follows_spec_algorithm (document_root : List (List Char))
    (p : List Char) :
    resolve document_root p =
      document_root ++ (components p).foldl specStep [] := by
  unfold resolve normalize
  rw [foldl_step_eq_foldl_specStep]

/-- Claim C3: for every request whose method is not GET, the handler
responds with status 405 Method Not Allowed and an empty body, regardless
of the request path and of the filesystem (so regardless of whether any
file or directory exists at the resolved path): the method check precedes
all filesystem checks. -/
theorem call_non_get_is_405 (fs : FS) (document_root : List (List Char))
    (method : String) (uriPath : List Char) (h : method ≠ "GET") :
    call fs document_root method uriPath = ⟨405, []⟩ := by
  simp [call, h]

theorem call_non_get_is_405_witness :
    ("POST" ≠ "GET") ∧
      call fsDirEverywhere [['s', 'r', 'v']] "POST"
          ['/', 'e', 'x', 'i', 's', 't', 'i', 'n', 'g'] = ⟨405, []⟩ :=
  ⟨by decide,
    call_non_get_is_405 fsDirEverywhere [['s', 'r', 'v']] "POST"
      ['/', 'e', 'x', 'i', 's', 't', 'i', 'n', 'g'] (by decide)⟩

/-- Claim C4: for every GET request whose resolved path is a directory, the
handler responds with status 403 Forbidden and an empty body (the strict
policy): no `index.html` fallback is attempted — the response does not
consult `openFile` at all, whatever it would return. -/
theorem call_get_dir_is_403 (fs : FS) (document_root : List (List Char))
    (uriPath : List Char)
    (h : fs.isDir (resolve document_root uriPath) = true) :
    call fs document_root "GET" uriPath = ⟨403, []⟩ := by
  simp [call, h]

theorem call_get_dir_is_403_witness :
    fsDirEverywhere.isDir (resolve [['s', 'r', 'v']] ['/', 'd']) = true ∧
      call fsDirEverywhere [['s', 'r', 'v']] "GET" ['/', 'd'] = ⟨403, []⟩ :=
  ⟨by decide,
    call_get_dir_is_403 fsDirEverywhere [['s', 'r', 'v']] ['/', 'd']
      (by decide)⟩

/-- Claim C5: for every GET request whose resolved path is not a directory
and for which opening the path fails (`File::open` returning an error for
any reason — missing file, permission denied, or any other I/O error, all
modelled by `openFile` returning `none`), the handler responds with status
404 Not Found and an empty body; in particular no open failure ever yields
403. -/
theorem call_open_failure_is_404 (fs : FS) (document_root : List (List Char))
    (uriPath : List Char)
    (hdir : fs.isDir (resolve document_root uriPath) = false)
    (hopen : fs.openFile (resolve document_root uriPath) = none) :
    call fs document_root "GET" uriPath = ⟨404, []⟩ := by
  simp [call, hdir, hopen]

theorem call_open_failure_is_404_witness :
    fsEmpty.isDir (resolve [['s', 'r', 'v']] ['/', 'm']) = false ∧
      fsEmpty.openFile (resolve [['s', 'r', 'v']] ['/', 'm']) = none ∧
      call fsEmpty [['s', 'r', 'v']] "GET" ['/', 'm'] = ⟨404, []⟩ :=
  ⟨by decide, by decide,
    call_open_failure_is_404 fsEmpty [['s', 'r', 'v']] ['/', 'm']
      (by decide) (by decide)⟩

/-- Claim C6: for every GET request whose resolved path is not a directory
and which opens successfully yielding byte content `content`, the handler
responds with status 200 and a body whose bytes are exactly `content` (the
bytes `FramedRead` with `BytesCodec` streams from the file until
end-of-file). -/
theorem call_open_success_is_200 (fs : FS) (document_root : List (List Char))
    (uriPath : List Char) (content : List Nat)
    (hdir : fs.isDir (resolve document_root uriPath) = false)
    (hopen : fs.openFile (resolve document_root uriPath) = some content) :
    call fs document_root "GET" uriPath = ⟨200, content⟩ := by
  simp [call, hdir, hopen]

theorem call_open_success_is_200_witness :
    fsFile123.isDir (resolve [['s', 'r', 'v']] ['/', 'f']) = false ∧
      fsFile123.openFile (resolve [['s', 'r', 'v']] ['/', 'f']) =
        some [1, 2, 3] ∧
      call fsFile123 [['s', 'r', 'v']] "GET" ['/', 'f'] = ⟨200, [1, 2, 3]⟩ :=
  ⟨by decide, by decide,
    call_open_success_is_200 fsFile123 [['s', 'r', 'v']] ['/', 'f'] [1, 2, 3]
      (by decide) (by decide)⟩

/-- Claim C7: for every inbound request the handler produces exactly one
response (`call` is a total function to a single `Response`), and its
status code is one of 200, 403, 404 and 405; no other status is ever
produced. -/
theorem call_status_is_one_of_four (fs : FS) (document_root : List (List Char))
    (method : String) (uriPath : List Char) :
    (call fs document_root method uriPath).status ∈
      ([200, 403, 404, 405] : List Nat) := by
  simp only [call]
  split
  · simp
  · split
    · simp
    · split <;> simp

/-- Claim C8: the resolver is a pure, deterministic function of the request
URI path and the document root.  `resolve` is by construction a function of
those two arguments alone, so determinism across repeated applications is
the first conjunct; independence from filesystem state (and hence from
anything another request could change) is the second: two runs of the
handler against any two filesystems that agree at the single resolved path
produce identical responses, however much the filesystems differ at every
other path. -/
theorem resolve_pure (document_root : List (List Char)) (p : List Char) :
    (∀ q, q = p → resolve document_root q = resolve document_root p) ∧
      ∀ (fs₁ fs₂ : FS) (method : String),
        fs₁.isDir (resolve document_root p) =
            fs₂.isDir (resolve document_root p) →
          fs₁.openFile (resolve document_root p) =
              fs₂.openFile (resolve document_root p) →
            call fs₁ document_root method p =
              call fs₂ document_root method p := by
  constructor
  · intro q hq
    rw [hq]
  · intro fs₁ fs₂ method h1 h2
    simp only [call]
    rw [h1, h2]

theorem resolve_pure_witness :
    fsOnlyRX.isDir (resolve [['r']] ['/', 'x']) =
        fsRXandNines.isDir (resolve [['r']] ['/', 'x']) ∧
      fsOnlyRX.openFile (resolve [['r']] ['/', 'x']) =
          fsRXandNines.openFile (resolve [['r']] ['/', 'x']) ∧
      call fsOnlyRX [['r']] "GET" ['/', 'x'] =
        call fsRXandNines [['r']] "GET" ['/', 'x'] :=
  ⟨by decide, by decide,
    (resolve_pure [['r']] ['/', 'x']).2 fsOnlyRX fsRXandNines "GET"
      (by decide) (by decide)⟩

theorem splitSlash_cons (c : Char) (cs : List Char) :
    splitSlash (c :: cs) =
      if c = '/' then [] :: splitSlash cs
      else
        match splitSlash cs with
        | [] => [[c]]
        | s :: ss => (c :: s) :: ss := rfl

theorem splitSlash_append (a b : List Char) :
    splitSlash (a ++ '/' :: b) = splitSlash a ++ splitSlash b := by
  induction a with
  | nil => simp [splitSlash]
  | cons c cs ih =>
    by_cases hc : c = '/'
    · subst hc
      rw [List.cons_append, splitSlash_cons, if_pos rfl, ih,
        splitSlash_cons, if_pos rfl, List.cons_append]
    · cases h : splitSlash cs with
      | nil => exact absurd h (splitSlash_ne_nil cs)
      | cons t ts =>
        have eL : splitSlash (c :: (cs ++ '/' :: b)) =
            (c :: t) :: (ts ++ splitSlash b) := by
          rw [splitSlash_cons, if_neg hc, ih, h, List.cons_append]
        have eR : splitSlash (c :: cs) = (c :: t) :: ts := by
          rw [splitSlash_cons, if_neg hc, h]
        rw [List.cons_append, eL, eR, List.cons_append]

theorem normalize_eq_foldl_filterMap (p : List Char) :
    normalize p = ((splitSlash p).filterMap classify).foldl step [] := by
  unfold normalize components
  by_cases habs : p.head? = some '/'
  · rw [if_pos habs, List.foldl_cons]
    rfl
  · rw [if_neg habs]
    cases h : splitSlash p with
    | nil => exact absurd h (splitSlash_ne_nil p)
    | cons first rest =>
      rw [List.filterMap_cons]
      by_cases h1 : first = []
      · subst h1
        simp [classify]
      · by_cases h2 : first = ['.']
        · subst h2
          simp [classify, step]
        · by_cases h3 : first = ['.', '.']
          · subst h3
            simp [classify, step]
          · simp [classify, h1, h2, h3, step]

theorem splitSlash_slash_cons (p : List Char) :
    splitSlash ('/' :: p) = [] :: splitSlash p := by
  simp [splitSlash]

theorem splitSlash_dot_slash_cons (p : List Char) :
    splitSlash ('.' :: '/' :: p) = ['.'] :: splitSlash p := by
  simp [splitSlash]

theorem normalize_slash_cons (p : List Char) :
    normalize ('/' :: p) = normalize p := by
  rw [normalize_eq_foldl_filterMap, normalize_eq_foldl_filterMap,
    splitSlash_slash_cons, List.filterMap_cons]
  simp [classify]

theorem normalize_append_slash (p : List Char) :
    normalize (p ++ ['/']) = normalize p := by
  rw [normalize_eq_foldl_filterMap, normalize_eq_foldl_filterMap]
  have h : splitSlash (p ++ ['/']) = splitSlash p ++ [[]] := by
    have h' := splitSlash_append p []
    simpa [splitSlash] using h'
  rw [h, List.filterMap_append]
  simp [classify]

theorem normalize_dot_segment (p₁ p₂ : List Char) :
    normalize (p₁ ++ '/' :: '.' :: '/' :: p₂) =
      normalize (p₁ ++ '/' :: p₂) := by
  rw [normalize_eq_foldl_filterMap, normalize_eq_foldl_filterMap,
    splitSlash_append, splitSlash_append, splitSlash_dot_slash_cons,
    List.filterMap_append, List.filterMap_append, List.filterMap_cons]
  simp [classify]

theorem normalize_double_slash (p₁ p₂ : List Char) :
    normalize (p₁ ++ '/' :: '/' :: p₂) =
      normalize (p₁ ++ '/' :: p₂) := by
  rw [normalize_eq_foldl_filterMap, normalize_eq_foldl_filterMap,
    splitSlash_append, splitSlash_append, splitSlash_slash_cons,
    List.filterMap_append, List.filterMap_append, List.filterMap_cons]
  simp [classify]

/-- Claim C9: request URI paths that differ only in a leading root anchor,
a trailing separator, a repeated separator (empty segment), or an
interleaved `.` segment resolve to the same path: for every path `p`,
`resolve ("/" ++ p) = resolve p` and `resolve (p ++ "/") = resolve p`, and
replacing any separator by `/./` or `//` leaves the resolved path
unchanged. -/
theorem resolve_respects_path_equivalences (document_root : List (List Char))
    (p p₁ p₂ : List Char) :
    resolve document_root ('/' :: p) = resolve document_root p ∧
      resolve document_root (p ++ ['/']) = resolve document_root p ∧
      resolve document_root (p₁ ++ '/' :: '.' :: '/' :: p₂) =
        resolve document_root (p₁ ++ '/' :: p₂) ∧
      resolve document_root (p₁ ++ '/' :: '/' :: p₂) =
        resolve document_root (p₁ ++ '/' :: p₂) := by
  unfold resolve
  rw [normalize_slash_cons, normalize_append_slash, normalize_dot_segment,
    normalize_double_slash]
  exact ⟨rfl, rfl, rfl, rfl⟩

/-- Claim C10: a GET request whose path normalizes to no literal segments
(such as `/`, `//`, `/.` or `/..`) resolves to the document root itself,
and whenever the document root is a directory such a request is answered
with status 403 and an empty body. -/
theorem empty_normalize_resolves_to_root (fs : FS)
    (document_root : List (List Char)) (p : List Char)
    (h : normalize p = []) :
    resolve document_root p = document_root ∧
      (fs.isDir document_root = true →
        call fs document_root "GET" p = ⟨403, []⟩) := by
  have hres : resolve document_root p = document_root := by
    unfold resolve
    rw [h, List.append_nil]
  refine ⟨hres, fun hdir => ?_⟩
  have hd : fs.isDir (resolve document_root p) = true := by
    rw [hres]
    exact hdir
  simp [call, hd]

theorem empty_normalize_resolves_to_root_witness :
    normalize ['/', '.', '.'] = [] ∧
      fsDirEverywhere.isDir [['w']] = true ∧
      resolve [['w']] ['/', '.', '.'] = [['w']] ∧
      call fsDirEverywhere [['w']] "GET" ['/', '.', '.'] = ⟨403, []⟩ := by
  refine ⟨by decide, by decide, ?_, ?_⟩
  · exact (empty_normalize_resolves_to_root fsDirEverywhere [['w']]
      ['/', '.', '.'] (by decide)).1
  · exact (empty_normalize_resolves_to_root fsDirEverywhere [['w']]
      ['/', '.', '.'] (by decide)).2 (by decide)

end Tororo
